import Mathlib

/-!
Verification of the schema-introspection path of the tsm1 storage engine:
`Engine.MeasurementNames`, `Engine.MeasurementTagValues` and
`Engine.MeasurementTagKeys` from `tsdb/tsm1/engine_measurement_schema.go`.

Byte strings (`[]byte` and Go `string` keys) are modelled as `List Nat`.
Collaborator objects (TSM files, cache entries, the cancellation context) are
modelled by the responses they return for the one fixed query
`(orgID, bucketID, start, end)` under consideration: a segment is the pair of
overlap-test answers together with the sequence of `(Key, HasData)` pairs its
`TimeRangeIterator` yields and the statistics the iterator reports; a cache
entry is its value count and the answer of `contains(start, end)`.  The
namespace byte string `pfx` (computed in Go from `tsdb.EncodeName` and
`models.EscapeMeasurement`, outside the visible source) is likewise carried as
an explicit parameter.
-/

namespace Tsm1

/-- Modelled from the spec: the scan-statistics accumulator
(`cursors.CursorStats`, not part of the visible source).  Spec §3 and §4.5:
two monotonically increasing counters, scanned value count and scanned byte
count, composable by componentwise addition. -/
structure CursorStats where
  scannedValues : Nat
  scannedBytes : Nat
deriving DecidableEq, Repr

/-- Modelled from the spec: `CursorStats.Add` is componentwise addition of the
two counters (spec §4.5). -/
def CursorStats.add (a b : CursorStats) : CursorStats :=
  ⟨a.scannedValues + b.scannedValues, a.scannedBytes + b.scannedBytes⟩

/-- The value of Go's `ctx.Err()`: `canceled` for `context.Canceled`,
`deadlineExceeded` for `context.DeadlineExceeded`. -/
inductive GoErr where
  | canceled
  | deadlineExceeded
deriving DecidableEq, Repr

/-- The cancellation context, modelled by what the code observes of it:
`doneAt i` is whether the `select` on `ctx.Done()` performed before the
`i`-th visited segment takes the done branch, and `errVal` is the value
`ctx.Err()` returns when called after the segment loop.  Go's context
contract (done observed implies a non-nil error) is carried as an explicit
hypothesis where a theorem needs it. -/
structure Context where
  doneAt : Nat → Bool
  errVal : Option GoErr

/-- A TSM segment file, modelled by its responses for the fixed query:
the results of `OverlapsTimeRange(start, end)` and
`OverlapsKeyPrefixRange(pfx, pfx)`, the sequence of `(Key(), HasData())`
pairs the `TimeRangeIterator(pfx, start, end)` cursor yields, and the
statistics the cursor reports through `Stats()` after the scan. -/
structure Segment where
  overlapsTimeRange : Bool
  overlapsKeyRange : Bool
  iterEntries : List (List Nat × Bool)
  iterStats : CursorStats
deriving DecidableEq, Repr

/-- A write-cache entry, modelled by its responses for the fixed query:
`entry.values.Len()` and `entry.values.Contains(start, end)`. -/
structure CacheEntry where
  valuesLen : Nat
  containsRange : Bool
deriving DecidableEq, Repr

/-- Modelled from the spec: `SeriesAndFieldFromCompositeKey` (tsm1 key codec,
not part of the visible source).  Spec §3: a composite key is
`series || 0x00 separator || field`, and every well-formed key contains the
separator; a key lacking it is corrupt and must be skipped, which the codec
signals by yielding an empty series so the caller's empty-measurement check
fires (spec §4.1, ok=false when no separator is found). -/
def seriesAndFieldFromCompositeKey (k : List Nat) : List Nat × List Nat :=
  if 0 ∈ k then (k.takeWhile (· ≠ 0), (k.dropWhile (· ≠ 0)).tail)
  else ([], [])

/-- Modelled from the spec: `models.ParseMeasurement` (not part of the visible
source).  Spec §3: the measurement name is the first escaped segment of the
series key, up to the first unescaped comma (byte 44, with 92 as the escape
byte); an empty extraction signals a malformed key. -/
def parseMeasurement : List Nat → List Nat
  | [] => []
  | 92 :: b :: rest => 92 :: b :: parseMeasurement rest
  | 44 :: _ => []
  | b :: rest => b :: parseMeasurement rest

/-- The measurement name extracted from a raw composite key, as the Go code
computes it: `name := models.ParseMeasurement(key)` where
`key, _ := SeriesAndFieldFromCompositeKey(sfkey)`. -/
def nameOfKey (k : List Nat) : List Nat :=
  parseMeasurement (seriesAndFieldFromCompositeKey k).1

/-- Accumulator of the segment-scan phase.  `found` is the `tsmValues` set in
insertion order, `stats` the running `cursors.CursorStats`, `canceled` the
`canceled` flag.  `checks` and `processed` are ghost instrumentation, absent
from the Go code: `checks` counts performed context observations and
`processed` counts segments whose callback body ran past the context check.
They influence nothing else. -/
structure SegAcc where
  found : List (List Nat)
  stats : CursorStats
  canceled : Bool
  checks : Nat
  processed : Nat
deriving DecidableEq, Repr

/-- The initial accumulator of `MeasurementNames`: empty `tsmValues` map,
zero statistics, `canceled = false`. -/
def segInit : SegAcc := ⟨[], ⟨0, 0⟩, false, 0, 0⟩

/-- The per-segment key loop of `MeasurementNames` (lines 45-66): advance the
cursor; stop at the first key without the namespace byte string `pfx`
(break); skip keys whose measurement extraction is empty; skip measurements
already in `tsmValues`; record the measurement only when the cursor reports
`HasData()`. -/
def scanSegmentKeys (pfx : List Nat) :
    List (List Nat × Bool) → List (List Nat) → List (List Nat)
  | [], found => found
  | (sfkey, hasData) :: rest, found =>
    if pfx.isPrefixOf sfkey then
      let name := nameOfKey sfkey
      if name = [] then scanSegmentKeys pfx rest found
      else if name ∈ found then scanSegmentKeys pfx rest found
      else if hasData then scanSegmentKeys pfx rest (found ++ [name])
      else scanSegmentKeys pfx rest found
    else found

/-- The body of the `ForEachFile` callback after the context check
(lines 43-69): when both overlap tests pass, run the key loop and add the
cursor's statistics; `processed` is ghost instrumentation. -/
def processFile (pfx : List Nat) (f : Segment) (acc : SegAcc) : SegAcc :=
  if f.overlapsTimeRange && f.overlapsKeyRange then
    { acc with
      found := scanSegmentKeys pfx f.iterEntries acc.found
      stats := acc.stats.add f.iterStats
      processed := acc.processed + 1 }
  else { acc with processed := acc.processed + 1 }

/-- Modelled from the spec: `FileStore.ForEachFile` (not part of the visible
source) applies the callback to each file of the snapshot and halts as soon
as the callback returns false (spec §4.2), which the callback does exactly
when the context observation before a segment takes the done branch
(lines 35-42).  `done i` is the observation before the `i`-th visited
segment; `checks` is ghost instrumentation. -/
def segLoop (done : Nat → Bool) (pfx : List Nat) :
    Nat → List Segment → SegAcc → SegAcc
  | _, [], acc => acc
  | i, f :: rest, acc =>
    if done i then { acc with canceled := true, checks := acc.checks + 1 }
    else segLoop done pfx (i + 1) rest
      (processFile pfx f { acc with checks := acc.checks + 1 })

/-- Accumulator of the cache-scan phase; `processed` is ghost
instrumentation counting entries the visitor was applied to. -/
structure CacheAcc where
  found : List (List Nat)
  stats : CursorStats
  processed : Nat
deriving DecidableEq, Repr

/-- The cache visitor closure passed to `Cache.ApplyEntryFn` (lines 79-102):
skip keys without the namespace byte string, skip empty measurement
extractions, skip measurements already found; otherwise charge the entry's
value count and value-count times 8 to the statistics, and record the
measurement only when `entry.values.Contains(start, end)` holds.  Every
return path of the Go closure returns a nil error. -/
def cacheVisitor (pfx : List Nat) (sfkey : List Nat) (e : CacheEntry)
    (acc : CacheAcc) : CacheAcc × Option GoErr :=
  if pfx.isPrefixOf sfkey then
    let name := nameOfKey sfkey
    if name = [] then (acc, none)
    else if name ∈ acc.found then (acc, none)
    else
      let stats : CursorStats :=
        ⟨acc.stats.scannedValues + e.valuesLen,
         acc.stats.scannedBytes + e.valuesLen * 8⟩
      if e.containsRange then
        ({ acc with found := acc.found ++ [name], stats := stats }, none)
      else ({ acc with stats := stats }, none)
  else (acc, none)

/-- Modelled from the spec: `Cache.ApplyEntryFn` (not part of the visible
source) applies the visitor to every cache entry and must run to completion
or surface the first error the visitor returns (spec §4.3); `processed` is
ghost instrumentation.  `MeasurementNames` discards the returned error
(line 79 assigns it to the blank identifier). -/
def applyEntryFn (fn : List Nat → CacheEntry → CacheAcc → CacheAcc × Option GoErr) :
    List (List Nat × CacheEntry) → CacheAcc → CacheAcc × Option GoErr
  | [], acc => (acc, none)
  | (k, e) :: rest, acc =>
    match fn k e { acc with processed := acc.processed + 1 } with
    | (acc', none) => applyEntryFn fn rest acc'
    | (acc', some err) => (acc', some err)

/-- One cache-scan step as performed inside `applyEntryFn`: the visitor
applied to one entry (with the ghost `processed` counter bumped), keeping the
accumulator.  Used to state that the scan equals a fold over the whole
cache. -/
def cacheStepFull (pfx : List Nat) (a : CacheAcc) (ke : List Nat × CacheEntry) : CacheAcc :=
  (cacheVisitor pfx ke.1 ke.2 { a with processed := a.processed + 1 }).1

/-- The byte-wise (lexicographic) order Go's `sort.Strings` sorts by:
the empty string is least, otherwise compare first bytes and fall through to
the tails on equality. -/
def bytesLe : List Nat → List Nat → Bool
  | [], _ => true
  | _ :: _, [] => false
  | a :: as, b :: bs => if a < b then true else if b < a then false else bytesLe as bs

/-- `bytesLe` as a relation, for use with the sorting library. -/
def NameLe (a b : List Nat) : Prop := bytesLe a b = true

instance : DecidableRel NameLe := fun a b => instDecidableEqBool (bytesLe a b) true

/-- The strict byte-wise order: `NameLe` and distinct. -/
def NameLt (a b : List Nat) : Prop := NameLe a b ∧ a ≠ b

/-- The final collect-and-sort step of `MeasurementNames` (lines 104-108):
the `tsmValues` set materialized and sorted ascending byte-wise by
`sort.Strings`.  Insertion sort is used here; it produces the same list as
any sort by this order because the order is total, transitive and
antisymmetric on the (duplicate-free) input. -/
def sortNames (l : List (List Nat)) : List (List Nat) :=
  List.insertionSort NameLe l

/-- The value returned through `cursors.NewStringSliceIteratorWithStats`:
a string-slice iterator holding the sorted names and the accumulated
statistics.  A Go nil slice is the empty list. -/
structure StringSliceIterator where
  vals : List (List Nat)
  stats : CursorStats
deriving DecidableEq, Repr

/-- The cache-scan phase of `MeasurementNames` (lines 76-102): apply the
cache visitor over the cache snapshot, threading the `tsmValues` set and
statistics from the segment phase; the error returned by `ApplyEntryFn` is
discarded, as in the Go code. -/
def cachePhase (pfx : List Nat) (cache : List (List Nat × CacheEntry))
    (found : List (List Nat)) (stats : CursorStats) : CacheAcc :=
  (applyEntryFn (cacheVisitor pfx) cache ⟨found, stats, 0⟩).1

/-- `Engine.MeasurementNames` (lines 23-111) for the fixed query, over the
namespace byte string `pfx`, the file-store snapshot `files` and the cache
snapshot `cache`: run the segment loop; on cancellation return an iterator
with a nil slice and the statistics so far together with `ctx.Err()`;
otherwise run the cache phase and return the sorted names with the final
statistics and a nil error. -/
def measurementNames (ctx : Context) (pfx : List Nat) (files : List Segment)
    (cache : List (List Nat × CacheEntry)) :
    Option StringSliceIterator × Option GoErr :=
  let seg := segLoop ctx.doneAt pfx 0 files segInit
  if seg.canceled then (some ⟨[], seg.stats⟩, ctx.errVal)
  else
    let c := cachePhase pfx cache seg.found seg.stats
    (some ⟨sortNames c.found, c.stats⟩, none)

/-- `Engine.MeasurementTagValues` (lines 121-123): the body is
`return nil, nil`. -/
def measurementTagValues (ctx : Context) (pfx : List Nat)
    (measurement tagKey : List Nat) (start endTime : Int) :
    Option StringSliceIterator × Option GoErr :=
  (none, none)

/-- `Engine.MeasurementTagKeys` (lines 133-135): the body is
`return nil, nil`. -/
def measurementTagKeys (ctx : Context) (pfx : List Nat)
    (measurement : List Nat) (start endTime : Int) :
    Option StringSliceIterator × Option GoErr :=
  (none, none)

/-- Fixture: a context that is never observed done (`ctx.Err()` nil). -/
def ctxLive : Context := ⟨fun _ => false, none⟩

/-- Fixture: a context whose done channel never fires during the first five
segment checks but whose error value is already set; used to show the result
does not depend on the token once the segment phase is over. -/
def ctxLive2 : Context := ⟨fun i => decide (5 ≤ i), some GoErr.deadlineExceeded⟩

/-- Fixture: a context observed done from the very first check. -/
def ctxDead : Context := ⟨fun _ => true, some GoErr.canceled⟩

/-- Fixture: a context observed done from the second check on. -/
def ctxLateDead : Context := ⟨fun i => decide (1 ≤ i), some GoErr.canceled⟩

/-- Fixture: a segment overlapping the query, with two well-formed keys under
the namespace byte string `[1]` (measurements `[1]` and `[1, 3]`), both with
data in range, and cursor statistics `(3, 4)`. -/
def segSample : Segment :=
  ⟨true, true, [([1, 0, 2], true), ([1, 3, 0, 4], true)], ⟨3, 4⟩⟩

/-- Fixture: a one-entry cache under the namespace byte string `[1]` whose
key parses to measurement `[1, 5]`, with seven values in range. -/
def cacheSample : List (List Nat × CacheEntry) := [([1, 5, 0, 2], ⟨7, true⟩)]

/-- Fixture: a cache whose entries parse to measurement `[1]` (also found by
`segSample`) and measurement `[1, 5]`. -/
def cacheBoth : List (List Nat × CacheEntry) :=
  [([1, 0, 9], ⟨2, true⟩), ([1, 5, 0, 2], ⟨7, true⟩)]

/-! ### The byte-wise order sorted by, and the sort step -/

theorem bytesLe_total : ∀ a b : List Nat, bytesLe a b = true ∨ bytesLe b a = true
  | [], _ => Or.inl rfl
  | _ :: _, [] => Or.inr rfl
  | a :: as, b :: bs => by
    simp only [bytesLe]
    rcases Nat.lt_trichotomy a b with h | h | h
    · left; simp [h]
    · subst h
      simpa [Nat.lt_irrefl] using bytesLe_total as bs
    · right; simp [h, Nat.lt_asymm h]

theorem bytesLe_trans : ∀ a b c : List Nat,
    bytesLe a b = true → bytesLe b c = true → bytesLe a c = true
  | [], _, _, _, _ => rfl
  | _ :: _, [], _, h, _ => by simp [bytesLe] at h
  | _ :: _, _ :: _, [], _, h => by simp [bytesLe] at h
  | a :: as, b :: bs, c :: cs, h1, h2 => by
    simp only [bytesLe] at h1 h2 ⊢
    by_cases hab : a < b
    · by_cases hbc : b < c
      · simp [Nat.lt_trans hab hbc]
      · by_cases hcb : c < b
        · simp [hbc, hcb] at h2
        · have hbceq : b = c := Nat.le_antisymm (Nat.not_lt.mp hcb) (Nat.not_lt.mp hbc)
          subst hbceq
          simp [hab]
    · by_cases hba : b < a
      · simp [hab, hba] at h1
      · have habeq : a = b := Nat.le_antisymm (Nat.not_lt.mp hba) (Nat.not_lt.mp hab)
        subst habeq
        by_cases hac : a < c
        · simp [hac]
        · by_cases hca : c < a
          · simp [hac, hca] at h2
          · simp only [hac, hca, if_neg, ite_false] at h1 h2 ⊢
            simp only [Nat.lt_irrefl, ite_false, if_neg] at h1
            exact bytesLe_trans as bs cs (by simpa using h1) (by simpa [hac, hca] using h2)

theorem bytesLe_antisymm : ∀ a b : List Nat,
    bytesLe a b = true → bytesLe b a = true → a = b
  | [], [], _, _ => rfl
  | [], _ :: _, _, h => by simp [bytesLe] at h
  | _ :: _, [], h, _ => by simp [bytesLe] at h
  | a :: as, b :: bs, h1, h2 => by
    simp only [bytesLe] at h1 h2
    by_cases hab : a < b
    · simp [hab, Nat.lt_asymm hab] at h2
    · by_cases hba : b < a
      · simp [hab, hba] at h1
      · have habeq : a = b := Nat.le_antisymm (Nat.not_lt.mp hba) (Nat.not_lt.mp hab)
        subst habeq
        simp only [Nat.lt_irrefl, ite_false, if_neg] at h1 h2
        have := bytesLe_antisymm as bs (by simpa using h1) (by simpa using h2)
        rw [this]

instance : IsTotal (List Nat) NameLe := ⟨fun a b => bytesLe_total a b⟩

instance : IsTrans (List Nat) NameLe := ⟨fun a b c => bytesLe_trans a b c⟩

instance : IsAntisymm (List Nat) NameLe := ⟨fun a b => bytesLe_antisymm a b⟩

theorem sortNames_perm (l : List (List Nat)) : List.Perm (sortNames l) l :=
  List.perm_insertionSort NameLe l

theorem sortNames_sorted (l : List (List Nat)) : (sortNames l).Pairwise NameLe :=
  List.sorted_insertionSort NameLe l

theorem sortNames_nodup {l : List (List Nat)} (h : l.Nodup) : (sortNames l).Nodup :=
  ((sortNames_perm l).nodup_iff).mpr h

theorem sortNames_pairwise_lt {l : List (List Nat)} (h : l.Nodup) :
    (sortNames l).Pairwise NameLt :=
  ((sortNames_sorted l).and (sortNames_nodup h)).imp fun hab => ⟨hab.1, hab.2⟩

theorem sortNames_mem {l : List (List Nat)} {x : List Nat} :
    x ∈ sortNames l ↔ x ∈ l :=
  (sortNames_perm l).mem_iff

/-! ### Cache-phase lemmas -/

theorem cacheVisitor_snd (pfx k : List Nat) (e : CacheEntry) (acc : CacheAcc) :
    (cacheVisitor pfx k e acc).2 = none := by
  simp only [cacheVisitor]
  split_ifs <;> rfl

theorem cacheVisitor_processed (pfx k : List Nat) (e : CacheEntry) (acc : CacheAcc) :
    (cacheVisitor pfx k e acc).1.processed = acc.processed := by
  simp only [cacheVisitor]
  split_ifs <;> rfl

theorem cacheVisitor_found_mem {pfx k : List Nat} {e : CacheEntry} {acc : CacheAcc}
    {name : List Nat} (h : name ∈ (cacheVisitor pfx k e acc).1.found) :
    name ∈ acc.found ∨
      (e.containsRange = true ∧ pfx.isPrefixOf k = true ∧ nameOfKey k = name) := by
  simp only [cacheVisitor] at h
  split_ifs at h with h1 h2 h3 h4
  · exact Or.inl h
  · exact Or.inl h
  · simp only [List.mem_append, List.mem_singleton] at h
    rcases h with h | h
    · exact Or.inl h
    · exact Or.inr ⟨h4, h1, h.symm⟩
  · exact Or.inl h
  · exact Or.inl h

theorem cacheVisitor_found_nodup {pfx k : List Nat} {e : CacheEntry} {acc : CacheAcc}
    (h : acc.found.Nodup) : (cacheVisitor pfx k e acc).1.found.Nodup := by
  simp only [cacheVisitor]
  split_ifs with h1 h2 h3 h4 <;> simp_all [List.nodup_append]

theorem cacheVisitor_found_ne_nil {pfx k : List Nat} {e : CacheEntry} {acc : CacheAcc}
    (h : [] ∉ acc.found) : [] ∉ (cacheVisitor pfx k e acc).1.found := by
  simp only [cacheVisitor]
  split_ifs with h1 h2 h3 h4
  · exact h
  · exact h
  · intro hh
    rcases List.mem_append.mp hh with hh | hh
    · exact h hh
    · exact h2 (List.mem_singleton.mp hh).symm
  · exact h
  · exact h

theorem cacheVisitor_congr {pfx k : List Nat} {e : CacheEntry} {acc acc' : CacheAcc}
    (h1 : acc.found = acc'.found) (h2 : acc.stats = acc'.stats) :
    (cacheVisitor pfx k e acc).1.found = (cacheVisitor pfx k e acc').1.found
      ∧ (cacheVisitor pfx k e acc).1.stats = (cacheVisitor pfx k e acc').1.stats := by
  simp only [cacheVisitor]
  rw [h1, h2]
  split_ifs <;> simp [h1, h2]

theorem applyEntryFn_eq_foldl (pfx : List Nat) :
    ∀ (c : List (List Nat × CacheEntry)) (acc : CacheAcc),
      applyEntryFn (cacheVisitor pfx) c acc = (c.foldl (cacheStepFull pfx) acc, none)
  | [], _ => rfl
  | (k, e) :: rest, acc => by
    simp only [applyEntryFn, List.foldl_cons]
    have hs := cacheVisitor_snd pfx k e { acc with processed := acc.processed + 1 }
    cases hv : cacheVisitor pfx k e { acc with processed := acc.processed + 1 } with
    | mk a' err =>
      rw [hv] at hs
      cases hs
      simpa [cacheStepFull, hv] using applyEntryFn_eq_foldl pfx rest a'

theorem cacheFold_processed (pfx : List Nat) :
    ∀ (c : List (List Nat × CacheEntry)) (acc : CacheAcc),
      (c.foldl (cacheStepFull pfx) acc).processed = acc.processed + c.length
  | [], _ => rfl
  | (k, e) :: rest, acc => by
    simp only [List.foldl_cons, cacheFold_processed pfx rest, cacheStepFull,
      cacheVisitor_processed, List.length_cons]
    omega

theorem cacheFold_found_mem (pfx : List Nat) :
    ∀ (c : List (List Nat × CacheEntry)) (acc : CacheAcc) (name : List Nat),
      name ∈ (c.foldl (cacheStepFull pfx) acc).found →
      name ∈ acc.found ∨
        ∃ ke, ke ∈ c ∧ ke.2.containsRange = true ∧ pfx.isPrefixOf ke.1 = true
          ∧ nameOfKey ke.1 = name
  | [], _, _, h => Or.inl h
  | (k, e) :: rest, acc, name, h => by
    rcases cacheFold_found_mem pfx rest _ name h with h' | ⟨ke, hke, hc, hp, hn⟩
    · rcases cacheVisitor_found_mem h' with h'' | ⟨hc, hp, hn⟩
      · exact Or.inl h''
      · exact Or.inr ⟨(k, e), List.mem_cons_self _ _, hc, hp, hn⟩
    · exact Or.inr ⟨ke, List.mem_cons_of_mem _ hke, hc, hp, hn⟩

theorem cacheFold_found_nodup (pfx : List Nat) :
    ∀ (c : List (List Nat × CacheEntry)) (acc : CacheAcc),
      acc.found.Nodup → (c.foldl (cacheStepFull pfx) acc).found.Nodup
  | [], _, h => h
  | (k, e) :: rest, acc, h =>
    cacheFold_found_nodup pfx rest _ (cacheVisitor_found_nodup h)

theorem cacheFold_found_ne_nil (pfx : List Nat) :
    ∀ (c : List (List Nat × CacheEntry)) (acc : CacheAcc),
      [] ∉ acc.found → [] ∉ (c.foldl (cacheStepFull pfx) acc).found
  | [], _, h => h
  | (k, e) :: rest, acc, h =>
    cacheFold_found_ne_nil pfx rest _ (cacheVisitor_found_ne_nil h)

theorem cacheFold_congr (pfx : List Nat) :
    ∀ (c : List (List Nat × CacheEntry)) (acc acc' : CacheAcc),
      acc.found = acc'.found → acc.stats = acc'.stats →
      (c.foldl (cacheStepFull pfx) acc).found = (c.foldl (cacheStepFull pfx) acc').found
        ∧ (c.foldl (cacheStepFull pfx) acc).stats = (c.foldl (cacheStepFull pfx) acc').stats
  | [], _, _, h1, h2 => ⟨h1, h2⟩
  | (k, e) :: rest, acc, acc', h1, h2 => by
    simp only [List.foldl_cons]
    have hstep := @cacheVisitor_congr pfx k e
      { acc with processed := acc.processed + 1 }
      { acc' with processed := acc'.processed + 1 } h1 h2
    exact cacheFold_congr pfx rest _ _ hstep.1 hstep.2

theorem cacheStepFull_malformed {pfx k : List Nat} {e : CacheEntry}
    (hname : nameOfKey k = []) (a : CacheAcc) :
    (cacheStepFull pfx a (k, e)).found = a.found
      ∧ (cacheStepFull pfx a (k, e)).stats = a.stats := by
  simp only [cacheStepFull, cacheVisitor]
  split_ifs with h1 h2 h3 h4 <;> simp_all


/-! ### Segment-phase lemmas -/

theorem scanSegmentKeys_found_mem (pfx : List Nat) :
    ∀ (es : List (List Nat × Bool)) (found : List (List Nat)) (name : List Nat),
      name ∈ scanSegmentKeys pfx es found →
      name ∈ found ∨
        ∃ k, (k, true) ∈ es ∧ pfx.isPrefixOf k = true ∧ nameOfKey k = name
  | [], _, _, h => Or.inl h
  | (sfkey, hasData) :: rest, found, name, h => by
    simp only [scanSegmentKeys] at h
    split_ifs at h with h1 h2 h3 h4
    · rcases scanSegmentKeys_found_mem pfx rest found name h with h' | ⟨k, hk, hp, hn⟩
      · exact Or.inl h'
      · exact Or.inr ⟨k, List.mem_cons_of_mem _ hk, hp, hn⟩
    · rcases scanSegmentKeys_found_mem pfx rest found name h with h' | ⟨k, hk, hp, hn⟩
      · exact Or.inl h'
      · exact Or.inr ⟨k, List.mem_cons_of_mem _ hk, hp, hn⟩
    · rcases scanSegmentKeys_found_mem pfx rest _ name h with h' | ⟨k, hk, hp, hn⟩
      · rcases List.mem_append.mp h' with h'' | h''
        · exact Or.inl h''
        · have : name = nameOfKey sfkey := List.mem_singleton.mp h''
          exact Or.inr ⟨sfkey, by simp [h4], h1, this.symm⟩
      · exact Or.inr ⟨k, List.mem_cons_of_mem _ hk, hp, hn⟩
    · rcases scanSegmentKeys_found_mem pfx rest found name h with h' | ⟨k, hk, hp, hn⟩
      · exact Or.inl h'
      · exact Or.inr ⟨k, List.mem_cons_of_mem _ hk, hp, hn⟩
    · exact Or.inl h

theorem scanSegmentKeys_found_nodup (pfx : List Nat) :
    ∀ (es : List (List Nat × Bool)) (found : List (List Nat)),
      found.Nodup → (scanSegmentKeys pfx es found).Nodup
  | [], _, h => h
  | (sfkey, hasData) :: rest, found, h => by
    simp only [scanSegmentKeys]
    split_ifs with h1 h2 h3 h4
    · exact scanSegmentKeys_found_nodup pfx rest found h
    · exact scanSegmentKeys_found_nodup pfx rest found h
    · refine scanSegmentKeys_found_nodup pfx rest _ ?_
      simp [List.nodup_append, h, h3]
    · exact scanSegmentKeys_found_nodup pfx rest found h
    · exact h

theorem scanSegmentKeys_found_ne_nil (pfx : List Nat) :
    ∀ (es : List (List Nat × Bool)) (found : List (List Nat)),
      [] ∉ found → [] ∉ scanSegmentKeys pfx es found
  | [], _, h => h
  | (sfkey, hasData) :: rest, found, h => by
    simp only [scanSegmentKeys]
    split_ifs with h1 h2 h3 h4
    · exact scanSegmentKeys_found_ne_nil pfx rest found h
    · exact scanSegmentKeys_found_ne_nil pfx rest found h
    · refine scanSegmentKeys_found_ne_nil pfx rest _ ?_
      intro hh
      rcases List.mem_append.mp hh with hh | hh
      · exact h hh
      · exact h2 (List.mem_singleton.mp hh).symm
    · exact scanSegmentKeys_found_ne_nil pfx rest found h
    · exact h

theorem scanSegmentKeys_skip_malformed {pfx k : List Nat}
    (hk : pfx.isPrefixOf k = true) (hname : nameOfKey k = []) :
    ∀ (pre : List (List Nat × Bool)) (b : Bool) (post : List (List Nat × Bool))
      (found : List (List Nat)),
      scanSegmentKeys pfx (pre ++ (k, b) :: post) found
        = scanSegmentKeys pfx (pre ++ post) found
  | [], b, post, found => by
    simp only [List.nil_append, scanSegmentKeys, hk, if_true, hname, if_pos]
  | (sfkey, hasData) :: pre', b, post, found => by
    simp only [List.cons_append, scanSegmentKeys]
    split_ifs <;> simp [scanSegmentKeys_skip_malformed hk hname pre']

theorem scanSegmentKeys_break {pfx k : List Nat} (hk : pfx.isPrefixOf k = false) :
    ∀ (pre : List (List Nat × Bool)) (b : Bool) (post : List (List Nat × Bool))
      (found : List (List Nat)),
      (∀ x ∈ pre, pfx.isPrefixOf x.1 = true) →
      scanSegmentKeys pfx (pre ++ (k, b) :: post) found = scanSegmentKeys pfx pre found
  | [], b, post, found, _ => by
    simp [scanSegmentKeys, hk]
  | (sfkey, hasData) :: pre', b, post, found, hpre => by
    have h1 : pfx.isPrefixOf sfkey = true := hpre (sfkey, hasData) (List.mem_cons_self _ _)
    have hpre' : ∀ x ∈ pre', pfx.isPrefixOf x.1 = true :=
      fun x hx => hpre x (List.mem_cons_of_mem _ hx)
    simp only [List.cons_append, scanSegmentKeys, h1, if_true]
    split_ifs <;> exact scanSegmentKeys_break hk pre' b post _ hpre'

theorem processFile_canceled (pfx : List Nat) (f : Segment) (acc : SegAcc) :
    (processFile pfx f acc).canceled = acc.canceled := by
  simp only [processFile]
  split_ifs <;> rfl

theorem processFile_checks (pfx : List Nat) (f : Segment) (acc : SegAcc) :
    (processFile pfx f acc).checks = acc.checks := by
  simp only [processFile]
  split_ifs <;> rfl

theorem processFile_processed (pfx : List Nat) (f : Segment) (acc : SegAcc) :
    (processFile pfx f acc).processed = acc.processed + 1 := by
  simp only [processFile]
  split_ifs <;> rfl

theorem processFile_found_mem {pfx : List Nat} {f : Segment} {acc : SegAcc}
    {name : List Nat} (h : name ∈ (processFile pfx f acc).found) :
    name ∈ acc.found ∨
      ∃ k, (k, true) ∈ f.iterEntries ∧ pfx.isPrefixOf k = true ∧ nameOfKey k = name := by
  simp only [processFile] at h
  split_ifs at h
  · exact scanSegmentKeys_found_mem pfx f.iterEntries acc.found name h
  · exact Or.inl h

theorem processFile_found_nodup {pfx : List Nat} {f : Segment} {acc : SegAcc}
    (h : acc.found.Nodup) : (processFile pfx f acc).found.Nodup := by
  simp only [processFile]
  split_ifs
  · exact scanSegmentKeys_found_nodup pfx f.iterEntries acc.found h
  · exact h

theorem processFile_found_ne_nil {pfx : List Nat} {f : Segment} {acc : SegAcc}
    (h : [] ∉ acc.found) : [] ∉ (processFile pfx f acc).found := by
  simp only [processFile]
  split_ifs
  · exact scanSegmentKeys_found_ne_nil pfx f.iterEntries acc.found h
  · exact h

theorem segLoop_found_mem (done : Nat → Bool) (pfx : List Nat) :
    ∀ (i : Nat) (files : List Segment) (acc : SegAcc) (name : List Nat),
      name ∈ (segLoop done pfx i files acc).found →
      name ∈ acc.found ∨
        ∃ f, f ∈ files ∧ ∃ k, (k, true) ∈ f.iterEntries ∧ pfx.isPrefixOf k = true
          ∧ nameOfKey k = name
  | _, [], _, _, h => Or.inl h
  | i, f :: rest, acc, name, h => by
    simp only [segLoop] at h
    split_ifs at h
    · exact Or.inl h
    · rcases segLoop_found_mem done pfx (i + 1) rest _ name h with h' | ⟨g, hg, hk⟩
      · rcases processFile_found_mem h' with h'' | ⟨k, hk, hp, hn⟩
        · exact Or.inl h''
        · exact Or.inr ⟨f, List.mem_cons_self _ _, k, hk, hp, hn⟩
      · exact Or.inr ⟨g, List.mem_cons_of_mem _ hg, hk⟩

theorem segLoop_found_nodup (done : Nat → Bool) (pfx : List Nat) :
    ∀ (i : Nat) (files : List Segment) (acc : SegAcc),
      acc.found.Nodup → (segLoop done pfx i files acc).found.Nodup
  | _, [], _, h => h
  | i, f :: rest, acc, h => by
    simp only [segLoop]
    split_ifs
    · exact h
    · exact segLoop_found_nodup done pfx (i + 1) rest _ (processFile_found_nodup h)

theorem segLoop_found_ne_nil (done : Nat → Bool) (pfx : List Nat) :
    ∀ (i : Nat) (files : List Segment) (acc : SegAcc),
      [] ∉ acc.found → [] ∉ (segLoop done pfx i files acc).found
  | _, [], _, h => h
  | i, f :: rest, acc, h => by
    simp only [segLoop]
    split_ifs
    · exact h
    · exact segLoop_found_ne_nil done pfx (i + 1) rest _ (processFile_found_ne_nil h)

theorem segLoop_canceled_fired (done : Nat → Bool) (pfx : List Nat) :
    ∀ (i : Nat) (files : List Segment) (acc : SegAcc),
      acc.canceled = false → (segLoop done pfx i files acc).canceled = true →
      ∃ j, j < files.length ∧ done (i + j) = true
  | _, [], _, h0, h => by
    simp only [segLoop] at h
    rw [h0] at h
    exact Bool.noConfusion h
  | i, f :: rest, acc, h0, h => by
    simp only [segLoop] at h
    split_ifs at h with h1
    · exact ⟨0, by simp, by simpa using h1⟩
    · have hc : (processFile pfx f { acc with checks := acc.checks + 1 }).canceled = false := by
        rw [processFile_canceled]; exact h0
      rcases segLoop_canceled_fired done pfx (i + 1) rest _ hc h with ⟨j, hj, hd⟩
      exact ⟨j + 1, by simpa using Nat.succ_lt_succ hj, by simpa [Nat.add_assoc, Nat.add_comm 1 j] using hd⟩

theorem segLoop_uncanceled_all_false (done : Nat → Bool) (pfx : List Nat) :
    ∀ (i : Nat) (files : List Segment) (acc : SegAcc),
      (segLoop done pfx i files acc).canceled = false →
      ∀ j, j < files.length → done (i + j) = false
  | _, [], _, _, j, hj => absurd hj (Nat.not_lt_zero j)
  | i, f :: rest, acc, h, j, hj => by
    simp only [segLoop] at h
    split_ifs at h with h1
    · cases j with
      | zero => simpa using Bool.of_not_eq_true h1
      | succ j' =>
        have := segLoop_uncanceled_all_false done pfx (i + 1) rest _ h j'
          (by simpa using Nat.lt_of_succ_lt_succ hj)
        simpa [Nat.add_assoc, Nat.add_comm 1 j'] using this

theorem segLoop_congr (done done' : Nat → Bool) (pfx : List Nat) :
    ∀ (i : Nat) (files : List Segment) (acc : SegAcc),
      (∀ j, j < files.length → done (i + j) = done' (i + j)) →
      segLoop done pfx i files acc = segLoop done' pfx i files acc
  | _, [], _, _ => rfl
  | i, f :: rest, acc, h => by
    have h0 : done i = done' i := by simpa using h 0 (by simp)
    simp only [segLoop, h0]
    split_ifs
    · rfl
    · exact segLoop_congr done done' pfx (i + 1) rest _
        (fun j hj => by
          simpa [Nat.add_assoc, Nat.add_comm 1 j] using
            h (j + 1) (by simpa using Nat.succ_lt_succ hj))

theorem segLoop_checks_eq (done : Nat → Bool) (pfx : List Nat) :
    ∀ (i : Nat) (files : List Segment) (acc : SegAcc),
      acc.canceled = false →
      (segLoop done pfx i files acc).checks + acc.processed
        = acc.checks + (segLoop done pfx i files acc).processed
          + (if (segLoop done pfx i files acc).canceled then 1 else 0)
  | _, [], acc, h0 => by simp [segLoop, h0]
  | i, f :: rest, acc, h0 => by
    simp only [segLoop]
    by_cases h1 : done i = true
    · simp only [if_pos h1]
      show acc.checks + 1 + acc.processed
          = acc.checks + acc.processed + (if true = true then 1 else 0)
      rw [if_pos rfl]
      omega
    · simp only [if_neg h1]
      have ih := segLoop_checks_eq done pfx (i + 1) rest
        (processFile pfx f { acc with checks := acc.checks + 1 })
        (by rw [processFile_canceled]; exact h0)
      have hch : (processFile pfx f { acc with checks := acc.checks + 1 }).checks
          = acc.checks + 1 := by rw [processFile_checks]
      have hpr : (processFile pfx f { acc with checks := acc.checks + 1 }).processed
          = acc.processed + 1 := by rw [processFile_processed]
      rw [hch, hpr] at ih
      omega


/-! ### Run-level helper lemmas -/

theorem measurementNames_canceled_run {ctx : Context} {pfx : List Nat}
    {files : List Segment} (cache : List (List Nat × CacheEntry))
    (h : (segLoop ctx.doneAt pfx 0 files segInit).canceled = true) :
    measurementNames ctx pfx files cache
      = (some ⟨[], (segLoop ctx.doneAt pfx 0 files segInit).stats⟩, ctx.errVal) := by
  simp only [measurementNames, h, if_true]

theorem measurementNames_uncanceled_run {ctx : Context} {pfx : List Nat}
    {files : List Segment} (cache : List (List Nat × CacheEntry))
    (h : (segLoop ctx.doneAt pfx 0 files segInit).canceled = false) :
    measurementNames ctx pfx files cache
      = (some ⟨sortNames (cachePhase pfx cache (segLoop ctx.doneAt pfx 0 files segInit).found
                 (segLoop ctx.doneAt pfx 0 files segInit).stats).found,
               (cachePhase pfx cache (segLoop ctx.doneAt pfx 0 files segInit).found
                 (segLoop ctx.doneAt pfx 0 files segInit).stats).stats⟩, none) := by
  simp only [measurementNames, h, Bool.false_eq_true, if_false]

theorem cachePhase_eq_foldl (pfx : List Nat) (cache : List (List Nat × CacheEntry))
    (found : List (List Nat)) (stats : CursorStats) :
    cachePhase pfx cache found stats = cache.foldl (cacheStepFull pfx) ⟨found, stats, 0⟩ := by
  simp only [cachePhase, applyEntryFn_eq_foldl]

theorem segInit_found_nodup : segInit.found.Nodup := List.nodup_nil

theorem segLoop_run_found_nodup (ctx : Context) (pfx : List Nat) (files : List Segment) :
    (segLoop ctx.doneAt pfx 0 files segInit).found.Nodup :=
  segLoop_found_nodup ctx.doneAt pfx 0 files segInit List.nodup_nil


theorem nodup_count_eq_one {l : List (List Nat)} (h : l.Nodup) {name : List Nat}
    (hm : name ∈ l) : l.count name = 1 := by
  induction l with
  | nil => cases hm
  | cons b t ih =>
    rw [List.count_cons]
    rcases List.mem_cons.mp hm with rfl | hm'
    · have hbt : name ∉ t := (List.nodup_cons.mp h).1
      rw [List.count_eq_zero_of_not_mem hbt]
      simp
    · have hne : b ≠ name := fun hh => ((List.nodup_cons.mp h).1 (hh ▸ hm')).elim
      rw [if_neg (by simp [hne])]
      simpa using ih (List.nodup_cons.mp h).2 hm'

/-! ### Claim theorems -/

/-- Claim C1: if the cancellation context fires during the segment-scan phase,
`MeasurementNames` returns a non-nil result — an iterator carrying the
statistics accumulated so far (and a nil name slice) — together with a
non-nil cancellation error; and for every input whatsoever, including
cancellation before any segment is visited, the returned result is never
nil.  The first hypothesis is Go's context contract: once the done channel
has been observed closed, `ctx.Err()` returns a non-nil error. -/
theorem measurementNames_cancel_contract (ctx : Context) (pfx : List Nat)
    (files : List Segment) (cache : List (List Nat × CacheEntry))
    (hctx : ∀ i, ctx.doneAt i = true → ctx.errVal.isSome = true)
    (hcan : (segLoop ctx.doneAt pfx 0 files segInit).canceled = true) :
    (measurementNames ctx pfx files cache).1
        = some ⟨[], (segLoop ctx.doneAt pfx 0 files segInit).stats⟩
    ∧ (measurementNames ctx pfx files cache).2.isSome = true
    ∧ ∀ (ctx' : Context) (files' : List Segment)
        (cache' : List (List Nat × CacheEntry)),
        (measurementNames ctx' pfx files' cache').1.isSome = true := by
  refine ⟨?_, ?_, ?_⟩
  · rw [measurementNames_canceled_run cache hcan]
  · rw [measurementNames_canceled_run cache hcan]
    rcases segLoop_canceled_fired ctx.doneAt pfx 0 files segInit rfl hcan with ⟨j, _, hd⟩
    exact hctx (0 + j) hd
  · intro ctx' files' cache'
    rcases Bool.eq_false_or_eq_true (segLoop ctx'.doneAt pfx 0 files' segInit).canceled
      with h | h
    · rw [measurementNames_canceled_run cache' h]
      rfl
    · rw [measurementNames_uncanceled_run cache' h]
      rfl

/-- Witness for C1: cancellation observed at the very first segment check,
before any segment is visited. -/
theorem measurementNames_cancel_contract_witness :
    (measurementNames ctxDead [1] [segSample] cacheSample).1
        = some ⟨[], (segLoop ctxDead.doneAt [1] 0 [segSample] segInit).stats⟩
    ∧ (measurementNames ctxDead [1] [segSample] cacheSample).2.isSome = true
    ∧ ∀ (ctx' : Context) (files' : List Segment)
        (cache' : List (List Nat × CacheEntry)),
        (measurementNames ctx' [1] files' cache').1.isSome = true :=
  measurementNames_cancel_contract ctxDead [1] [segSample] cacheSample
    (fun _ _ => rfl) (by decide)

/-- Claim C5: when cancellation is observed during the segment phase, the returned
iterator carries no measurement names at all — the names discovered from
segments before the cancellation are discarded (the Go code passes a nil
slice) — and only the accumulated statistics survive, next to `ctx.Err()`. -/
theorem measurementNames_cancel_discards_names (ctx : Context) (pfx : List Nat)
    (files : List Segment) (cache : List (List Nat × CacheEntry))
    (hcan : (segLoop ctx.doneAt pfx 0 files segInit).canceled = true) :
    measurementNames ctx pfx files cache
      = (some ⟨[], (segLoop ctx.doneAt pfx 0 files segInit).stats⟩, ctx.errVal) :=
  measurementNames_canceled_run cache hcan

/-- Witness for C5: the first segment is processed (its two measurements are
discovered and its statistics `(3, 4)` accumulated), then the check before
the second segment observes cancellation: the names are dropped while the
statistics survive. -/
theorem measurementNames_cancel_discards_names_witness :
    measurementNames ctxLateDead [1] [segSample, segSample] cacheSample
      = (some ⟨[], ⟨3, 4⟩⟩, some GoErr.canceled) :=
  measurementNames_cancel_discards_names ctxLateDead [1] [segSample, segSample]
    cacheSample (by decide)

/-- Claim C3: the cache scan either runs to completion or surfaces an error from
the visitor.  The visitor `MeasurementNames` passes to `ApplyEntryFn`
returns a nil error on every path, so the scan always runs to completion:
it equals the plain fold over the entire cache, returns no error, and the
ghost counter records that every entry was visited.  (The propagation branch
of the contract is unreachable: no error can arise; note the Go code would
in fact discard it, assigning the result of `ApplyEntryFn` to the blank
identifier.) -/
theorem applyEntryFn_cacheVisitor_completes (pfx : List Nat)
    (cache : List (List Nat × CacheEntry)) (acc : CacheAcc) :
    applyEntryFn (cacheVisitor pfx) cache acc
        = (cache.foldl (cacheStepFull pfx) acc, none)
    ∧ (applyEntryFn (cacheVisitor pfx) cache acc).1.processed
        = acc.processed + cache.length := by
  refine ⟨applyEntryFn_eq_foldl pfx cache acc, ?_⟩
  rw [applyEntryFn_eq_foldl pfx cache acc]
  exact cacheFold_processed pfx cache acc

/-- Claim C10: `MeasurementTagValues` and `MeasurementTagKeys` return a nil
iterator together with a nil error on every input, so a caller checking only
for a non-nil error obtains no usable iterator from them. -/
theorem measurementTagValuesKeys_nil_nil (ctx : Context) (pfx m tk : List Nat)
    (s e : Int) :
    measurementTagValues ctx pfx m tk s e = (none, none)
    ∧ measurementTagKeys ctx pfx m s e = (none, none) :=
  ⟨rfl, rfl⟩

/-- Claim C8: within one segment cursor, the per-key loop stops at the first key
that does not carry the namespace byte string: the scan of
`pre ++ (k, b) :: post` equals the scan of `pre` alone, so neither the
out-of-prefix key `k` itself nor any key after it is examined or can
contribute a measurement — a break, not a skip-and-continue. -/
theorem scanSegmentKeys_break_at_first (pfx k : List Nat) (b : Bool)
    (pre post : List (List Nat × Bool)) (found : List (List Nat))
    (hpre : ∀ x ∈ pre, pfx.isPrefixOf x.1 = true)
    (hk : pfx.isPrefixOf k = false) :
    scanSegmentKeys pfx (pre ++ (k, b) :: post) found
      = scanSegmentKeys pfx pre found :=
  scanSegmentKeys_break hk pre b post found hpre

/-- Witness for C8: the in-prefix key `[1, 9, 0, 3]` sits after the
out-of-prefix key `[2]`, has data, and still contributes nothing. -/
theorem scanSegmentKeys_break_at_first_witness :
    scanSegmentKeys [1] [([1, 0, 2], true), ([2], true), ([1, 9, 0, 3], true)] []
      = scanSegmentKeys [1] [([1, 0, 2], true)] [] :=
  scanSegmentKeys_break_at_first [1] [2] true [([1, 0, 2], true)]
    [([1, 9, 0, 3], true)] [] (by decide) (by decide)

/-- Counterexample to C2 as stated: `segSample` finds measurement `[1]` in
the segment phase with statistics `(3, 4)`; the cache holds one in-range
entry with key `[1, 0, 9]` — the same measurement `[1]` — and value count 5.
The claim predicts the entry's value count is added to scanned-value
statistics even though its measurement was already found
(`3 + 5 = 8` scanned values); the code skips the entry before the statistics
update, leaving `(3, 4)` unchanged. -/
theorem measurementNames_cache_stats_cex :
    ∃ it, (measurementNames ctxLive [1] [segSample]
        [([1, 0, 9], ⟨5, true⟩)]).1 = some it
      ∧ it.stats.scannedValues ≠ 3 + 5 ∧ it.stats.scannedBytes ≠ 4 + 5 * 8 :=
  ⟨⟨[[1], [1, 3]], ⟨3, 4⟩⟩, by decide, by decide, by decide⟩

/-- C2 as amended: during the cache phase, an in-prefix entry whose key
parses to a nonempty measurement is charged to statistics — value count to
scanned values and value count times the 8-byte timestamp width to scanned
bytes — if and only if its measurement is not already in the found set; in
particular entries failing the time-range test are still charged, while an
entry whose measurement was already found (by the segment phase or an
earlier cache entry) is skipped entirely, leaving both statistics and the
result set unchanged. -/
theorem cacheVisitor_stats_amended (pfx k : List Nat) (e : CacheEntry)
    (acc : CacheAcc) (hk : pfx.isPrefixOf k = true)
    (hname : nameOfKey k ≠ []) :
    cacheVisitor pfx k e acc =
      (if nameOfKey k ∈ acc.found then acc
       else if e.containsRange then
         { acc with found := acc.found ++ [nameOfKey k],
                    stats := ⟨acc.stats.scannedValues + e.valuesLen,
                              acc.stats.scannedBytes + e.valuesLen * 8⟩ }
       else { acc with stats := ⟨acc.stats.scannedValues + e.valuesLen,
                                 acc.stats.scannedBytes + e.valuesLen * 8⟩ },
       none) := by
  simp only [cacheVisitor, hk, if_true, hname, if_neg, ite_false]
  split_ifs <;> rfl

/-- Witness for C2's amended statement: an already-found entry (measurement
`[1]`) is skipped without charge. -/
theorem cacheVisitor_stats_amended_witness :
    cacheVisitor [1] [1, 0, 9] ⟨5, true⟩ ⟨[[1]], ⟨3, 4⟩, 0⟩ =
      (if nameOfKey [1, 0, 9] ∈ [[1]] then (⟨[[1]], ⟨3, 4⟩, 0⟩ : CacheAcc)
       else if (true : Bool) then
         ⟨[[1]] ++ [nameOfKey [1, 0, 9]], ⟨3 + 5, 4 + 5 * 8⟩, 0⟩
       else ⟨[[1]], ⟨3 + 5, 4 + 5 * 8⟩, 0⟩, none) :=
  cacheVisitor_stats_amended [1] [1, 0, 9] ⟨5, true⟩ ⟨[[1]], ⟨3, 4⟩, 0⟩
    (by decide) (by decide)


/-- Claim C4: in every uncanceled run the returned sequence of measurement names
is strictly ascending in the byte-wise order — hence duplicate-free — and
every name present occurs exactly once, in particular a measurement found in
both a segment and the cache. -/
theorem measurementNames_output_sorted (ctx : Context) (pfx : List Nat)
    (files : List Segment) (cache : List (List Nat × CacheEntry))
    (it : StringSliceIterator)
    (h : (segLoop ctx.doneAt pfx 0 files segInit).canceled = false)
    (hit : (measurementNames ctx pfx files cache).1 = some it) :
    it.vals.Pairwise NameLt ∧ ∀ name ∈ it.vals, it.vals.count name = 1 := by
  rw [measurementNames_uncanceled_run cache h] at hit
  injection hit with hit'
  subst hit'
  have hnd : (cachePhase pfx cache (segLoop ctx.doneAt pfx 0 files segInit).found
      (segLoop ctx.doneAt pfx 0 files segInit).stats).found.Nodup := by
    rw [cachePhase_eq_foldl]
    exact cacheFold_found_nodup pfx cache _ (segLoop_run_found_nodup ctx pfx files)
  exact ⟨sortNames_pairwise_lt hnd,
    fun name hm => nodup_count_eq_one (sortNames_nodup hnd) hm⟩

/-- Witness for C4: measurement `[1]` appears in both `segSample` and
`cacheBoth`; the output is strictly ascending and counts it once. -/
theorem measurementNames_output_sorted_witness :
    ([[1], [1, 3], [1, 5]] : List (List Nat)).Pairwise NameLt
    ∧ ([[1], [1, 3], [1, 5]] : List (List Nat)).count [1] = 1 := by
  have h := measurementNames_output_sorted ctxLive [1] [segSample] cacheBoth
    ⟨[[1], [1, 3], [1, 5]], ⟨10, 60⟩⟩ (by decide) (by decide)
  exact ⟨h.1, h.2 [1] (by decide)⟩

/-- Claim C6: every measurement name in the output of an uncanceled run was
recorded under a positive data signal in range: it comes from a segment key
for which the cursor reported `HasData()`, or from a cache entry whose
`contains(start, end)` test succeeded. -/
theorem measurementNames_positive_signal (ctx : Context) (pfx : List Nat)
    (files : List Segment) (cache : List (List Nat × CacheEntry))
    (it : StringSliceIterator) (name : List Nat)
    (h : (segLoop ctx.doneAt pfx 0 files segInit).canceled = false)
    (hit : (measurementNames ctx pfx files cache).1 = some it)
    (hmem : name ∈ it.vals) :
    (∃ f, f ∈ files ∧ ∃ k, (k, true) ∈ f.iterEntries
        ∧ pfx.isPrefixOf k = true ∧ nameOfKey k = name)
    ∨ (∃ ke, ke ∈ cache ∧ ke.2.containsRange = true
        ∧ pfx.isPrefixOf ke.1 = true ∧ nameOfKey ke.1 = name) := by
  rw [measurementNames_uncanceled_run cache h] at hit
  injection hit with hit'
  subst hit'
  have hm2 : name ∈ (cachePhase pfx cache
      (segLoop ctx.doneAt pfx 0 files segInit).found
      (segLoop ctx.doneAt pfx 0 files segInit).stats).found := sortNames_mem.mp hmem
  rw [cachePhase_eq_foldl] at hm2
  rcases cacheFold_found_mem pfx cache _ name hm2 with hm3 | ⟨ke, hke, hc, hp, hn⟩
  · rcases segLoop_found_mem ctx.doneAt pfx 0 files segInit name hm3
      with hm4 | ⟨f, hf, k, hk, hp, hn⟩
    · exact absurd hm4 (List.not_mem_nil name)
    · exact Or.inl ⟨f, hf, k, hk, hp, hn⟩
  · exact Or.inr ⟨ke, hke, hc, hp, hn⟩

/-- Witness for C6 at measurement `[1]` of the concrete run. -/
theorem measurementNames_positive_signal_witness :
    (∃ f, f ∈ [segSample] ∧ ∃ k, (k, true) ∈ f.iterEntries
        ∧ ([1] : List Nat).isPrefixOf k = true ∧ nameOfKey k = [1])
    ∨ (∃ ke, ke ∈ cacheBoth ∧ ke.2.containsRange = true
        ∧ ([1] : List Nat).isPrefixOf ke.1 = true ∧ nameOfKey ke.1 = [1]) :=
  measurementNames_positive_signal ctxLive [1] [segSample] cacheBoth
    ⟨[[1], [1, 3], [1, 5]], ⟨10, 60⟩⟩ [1] (by decide) (by decide) (by decide)

/-- Claim C7: cancellation is observed exactly once per visited segment, before
that segment is processed — the number of context observations equals the
number of processed segments, plus one (the firing observation, whose
segment is not processed) exactly when the run was canceled — and it is
never observed during the cache phase: once the segment phase completes
without cancellation, the result is the same under any cancellation token
that also does not fire during the segment phase (in particular one whose
error value is already set), and the cache scan visits every entry. -/
theorem measurementNames_cancellation_granularity (ctx ctx' : Context)
    (d : Nat → Bool) (pfx : List Nat) (files : List Segment)
    (cache : List (List Nat × CacheEntry))
    (h : (segLoop ctx.doneAt pfx 0 files segInit).canceled = false)
    (h' : (segLoop ctx'.doneAt pfx 0 files segInit).canceled = false) :
    ((segLoop d pfx 0 files segInit).checks
        = (segLoop d pfx 0 files segInit).processed
          + (if (segLoop d pfx 0 files segInit).canceled then 1 else 0))
    ∧ measurementNames ctx pfx files cache = measurementNames ctx' pfx files cache
    ∧ (cachePhase pfx cache (segLoop ctx.doneAt pfx 0 files segInit).found
        (segLoop ctx.doneAt pfx 0 files segInit).stats).processed = cache.length := by
  refine ⟨?_, ?_, ?_⟩
  · have := segLoop_checks_eq d pfx 0 files segInit rfl
    simpa [segInit] using this
  · have hall : ∀ j, j < files.length → ctx.doneAt (0 + j) = ctx'.doneAt (0 + j) := by
      intro j hj
      rw [segLoop_uncanceled_all_false ctx.doneAt pfx 0 files segInit h j hj,
        segLoop_uncanceled_all_false ctx'.doneAt pfx 0 files segInit h' j hj]
    have hseg := segLoop_congr ctx.doneAt ctx'.doneAt pfx 0 files segInit hall
    rw [measurementNames_uncanceled_run cache h, measurementNames_uncanceled_run cache h',
      hseg]
  · rw [cachePhase_eq_foldl]
    have := cacheFold_processed pfx cache
      ⟨(segLoop ctx.doneAt pfx 0 files segInit).found,
       (segLoop ctx.doneAt pfx 0 files segInit).stats, 0⟩
    simpa using this

/-- Witness for C7: two tokens that do not fire during the two-segment scan
(one with an error value already set) yield identical results; the ghost
count for a token firing before the second segment shows one observation per
processed segment plus the firing one. -/
theorem measurementNames_cancellation_granularity_witness :
    ((segLoop ctxLateDead.doneAt [1] 0 [segSample, segSample] segInit).checks
        = (segLoop ctxLateDead.doneAt [1] 0 [segSample, segSample] segInit).processed
          + (if (segLoop ctxLateDead.doneAt [1] 0 [segSample, segSample] segInit).canceled
             then 1 else 0))
    ∧ measurementNames ctxLive [1] [segSample, segSample] cacheSample
        = measurementNames ctxLive2 [1] [segSample, segSample] cacheSample
    ∧ (cachePhase [1] cacheSample
        (segLoop ctxLive.doneAt [1] 0 [segSample, segSample] segInit).found
        (segLoop ctxLive.doneAt [1] 0 [segSample, segSample] segInit).stats).processed
      = cacheSample.length :=
  measurementNames_cancellation_granularity ctxLive ctxLive2 ctxLateDead.doneAt [1]
    [segSample, segSample] cacheSample (by decide) (by decide)

/-- Claim C9: a malformed key — one with no separator, or an empty measurement
segment — is skipped by both phases without failing the scan: deleting it
from a segment cursor or from the cache leaves the result unchanged, no
empty string ever appears in the output, and no error reaches the caller of
an uncanceled run whatever keys the input contains. -/
theorem measurementNames_malformed_key_safe (ctx : Context) (pfx k : List Nat)
    (b : Bool) (e : CacheEntry) (files : List Segment)
    (pre post : List (List Nat × Bool)) (found : List (List Nat))
    (cpre cpost cache : List (List Nat × CacheEntry))
    (hk : pfx.isPrefixOf k = true) (hname : nameOfKey k = []) :
    scanSegmentKeys pfx (pre ++ (k, b) :: post) found
        = scanSegmentKeys pfx (pre ++ post) found
    ∧ measurementNames ctx pfx files (cpre ++ (k, e) :: cpost)
        = measurementNames ctx pfx files (cpre ++ cpost)
    ∧ (∀ it, (measurementNames ctx pfx files cache).1 = some it → [] ∉ it.vals)
    ∧ ((segLoop ctx.doneAt pfx 0 files segInit).canceled = false →
        (measurementNames ctx pfx files cache).2 = none) := by
  refine ⟨scanSegmentKeys_skip_malformed hk hname pre b post found, ?_, ?_, ?_⟩
  · rcases Bool.eq_false_or_eq_true (segLoop ctx.doneAt pfx 0 files segInit).canceled
      with hc | hc
    · rw [measurementNames_canceled_run (cpre ++ (k, e) :: cpost) hc,
        measurementNames_canceled_run (cpre ++ cpost) hc]
    · rw [measurementNames_uncanceled_run (cpre ++ (k, e) :: cpost) hc,
        measurementNames_uncanceled_run (cpre ++ cpost) hc,
        cachePhase_eq_foldl, cachePhase_eq_foldl]
      rw [List.foldl_append, List.foldl_append, List.foldl_cons]
      have hstep := @cacheStepFull_malformed pfx k e hname
        (cpre.foldl (cacheStepFull pfx)
          ⟨(segLoop ctx.doneAt pfx 0 files segInit).found,
           (segLoop ctx.doneAt pfx 0 files segInit).stats, 0⟩)
      have hcong := cacheFold_congr pfx cpost _ _ hstep.1 hstep.2
      rw [hcong.1, hcong.2]
  · intro it hit
    rcases Bool.eq_false_or_eq_true (segLoop ctx.doneAt pfx 0 files segInit).canceled
      with hc | hc
    · rw [measurementNames_canceled_run cache hc] at hit
      injection hit with hit'
      subst hit'
      exact List.not_mem_nil []
    · rw [measurementNames_uncanceled_run cache hc] at hit
      injection hit with hit'
      subst hit'
      intro hmem
      have hm2 := sortNames_mem.mp hmem
      rw [cachePhase_eq_foldl] at hm2
      exact cacheFold_found_ne_nil pfx cache _
        (segLoop_found_ne_nil ctx.doneAt pfx 0 files segInit (List.not_mem_nil [])) hm2
  · intro hc
    rw [measurementNames_uncanceled_run cache hc]

/-- Witness for C9: the separator-free key `[1, 2, 3]` carries the namespace
byte string but parses to no measurement; injecting it into a segment cursor
or the cache changes nothing, and the concrete uncanceled run has no empty
string and no error. -/
theorem measurementNames_malformed_key_safe_witness :
    scanSegmentKeys [1] ([([1, 0, 2], true)] ++ ([1, 2, 3], true) :: [([1, 9, 0, 3], true)]) []
        = scanSegmentKeys [1] ([([1, 0, 2], true)] ++ [([1, 9, 0, 3], true)]) []
    ∧ measurementNames ctxLive [1] [segSample] ([] ++ ([1, 2, 3], ⟨9, true⟩) :: cacheSample)
        = measurementNames ctxLive [1] [segSample] ([] ++ cacheSample)
    ∧ (∀ it, (measurementNames ctxLive [1] [segSample] cacheSample).1 = some it →
        [] ∉ it.vals)
    ∧ ((segLoop ctxLive.doneAt [1] 0 [segSample] segInit).canceled = false →
        (measurementNames ctxLive [1] [segSample] cacheSample).2 = none) :=
  measurementNames_malformed_key_safe ctxLive [1] [1, 2, 3] true ⟨9, true⟩ [segSample]
    [([1, 0, 2], true)] [([1, 9, 0, 3], true)] [] [] cacheSample cacheSample
    (by decide) (by decide)

end Tsm1
